import Mathlib

/-!
# HuffStream — verification of the codec and transfer protocol

Shallow embedding of `src/utils/huffman.py` (Huffman codec: tree construction,
code derivation, bit packing, greedy table-driven decode) and
`src/server/multi_server.py` (control/data channel handlers over the transfer
registry), with theorems settling the specification claims.

Modelling conventions:
* a Python byte value is a `Nat` (< 256 where it comes from real bytes);
* a Python bitstring `"0"`/`"1"` is a `List Bool` (`false` = `"0"`, `true` = `"1"`);
* Python dicts are association lists in insertion order; all dict updates in the
  modelled code happen on distinct keys, so first-match lookup coincides with
  dict lookup;
* `pickle.dump`/`pickle.load` of the metadata dict is modelled as the identity
  on a `Payload` record (serialization is a bijection on the records involved);
* file and socket I/O is modelled by explicit arguments and returned values.
-/

namespace HuffStream

/-- Bitstrings are lists of bits, `false` for `"0"` and `true` for `"1"`. -/
abbrev BitString := List Bool

/-- `HuffmanNode` from `huffman.py`: a leaf carries a byte value (`char`),
an internal node carries two children.  In the Python code internal nodes
always have both children set and `char = None`, and leaves never have
children, so the inductive covers exactly the reachable shapes. -/
inductive Tree where
  | leaf (char : Nat)
  | node (left right : Tree)
deriving DecidableEq

/-- `heapq.heappop`: extract a minimum-frequency element from the queue.
The Python heap orders only by `freq` (`HuffmanNode.__lt__`); which of several
equal-frequency elements is popped is unspecified, so the model fixes the
first minimal element in list order (ties broken towards earlier entries). -/
def popMin : List (Tree × Nat) → Option ((Tree × Nat) × List (Tree × Nat))
  | [] => none
  | x :: xs =>
    match popMin xs with
    | none => some (x, [])
    | some (m, rest) => if x.2 ≤ m.2 then some (x, xs) else some (m, x :: rest)

/-- The `while len(priority_queue) > 1` merge loop of `build_huffman_tree`:
pop the two minimal nodes, push an internal node carrying the summed
frequency.  Each iteration shrinks the queue by one, so `fuel` equal to the
initial queue length always suffices. -/
def buildLoop : Nat → List (Tree × Nat) → List (Tree × Nat)
  | 0, q => q
  | fuel + 1, q =>
    if q.length ≤ 1 then q
    else
      match popMin q with
      | none => q
      | some (a, q1) =>
        match popMin q1 with
        | none => q
        | some (b, q2) => buildLoop fuel ((Tree.node a.1 b.1, a.2 + b.2) :: q2)

/-- Keys of `collections.Counter(data)` in insertion order: the distinct
elements of `data`, first occurrence first, skipping anything in `seen`. -/
def uniqueKeysFrom (seen : List Nat) : List Nat → List Nat
  | [] => []
  | a :: l => if a ∈ seen then uniqueKeysFrom seen l else a :: uniqueKeysFrom (a :: seen) l

/-- Distinct byte values of `data` in first-occurrence order. -/
def uniqueKeys (data : List Nat) : List Nat := uniqueKeysFrom [] data

/-- The initial priority queue of `build_huffman_tree`: one leaf per distinct
byte of `data`, carrying its `Counter` frequency. -/
def initQueue (data : List Nat) : List (Tree × Nat) :=
  (uniqueKeys data).map (fun c => (Tree.leaf c, data.count c))

/-- `build_huffman_tree(data)`: run the merge loop on the initial queue and
return the remaining tree, or `none` for empty input
(`priority_queue[0] if priority_queue else None`). -/
def build_huffman_tree (data : List Nat) : Option Tree :=
  match buildLoop (initQueue data).length (initQueue data) with
  | [] => none
  | t :: _ => some t.1

/-- `build_codes(node, code)`: depth-first traversal assigning `code + "0"` /
`code + "1"` per branch; a leaf reached with the empty code (single-node
tree) gets the reserved code `"0"`.  The mapping dict is the association
list in traversal (insertion) order. -/
def build_codes : Tree → BitString → List (Nat × BitString)
  | .leaf c, code => [(c, if code = [] then [false] else code)]
  | .node l r, code => build_codes l (code ++ [false]) ++ build_codes r (code ++ [true])

/-- Association-list lookup, first match wins (Python dict lookup; all
modelled dicts have distinct keys). -/
def afind {α β : Type} [DecidableEq α] (k : α) : List (α × β) → Option β
  | [] => none
  | (k', v) :: rest => if k' = k then some v else afind k rest

/-- `huffman_encode(data)`: returns `(encoded_data, codes, reverse_mapping)`.
`codes[byte]` in the concatenation loop is modelled with a `.getD []`
default; the key is always present (every input byte is a leaf of the tree,
proved below), so the default is never taken.  The `none` branch for the
tree is likewise unreachable on non-empty data. -/
def huffman_encode (data : List Nat) :
    BitString × List (Nat × BitString) × List (BitString × Nat) :=
  if data = [] then ([], [], [])
  else
    match build_huffman_tree data with
    | none => ([], [], [])
    | some root =>
      let codes := build_codes root []
      let encoded_data := data.foldl (fun acc byte => acc ++ (afind byte codes).getD []) []
      (encoded_data, codes, codes.map (fun p => (p.2, p.1)))

/-- The `for bit in encoded_data` loop of `huffman_decode`: grow
`current_code` bit by bit, emit a byte and reset whenever `current_code` is a
key of `reverse_mapping`.  Any unmatched trailing `current_code` is
discarded when the bits run out. -/
def decodeLoop (reverse_mapping : List (BitString × Nat)) :
    List Bool → BitString → List Nat
  | [], _ => []
  | bit :: rest, current_code =>
    match afind (current_code ++ [bit]) reverse_mapping with
    | some byte => byte :: decodeLoop reverse_mapping rest []
    | none => decodeLoop reverse_mapping rest (current_code ++ [bit])

/-- `huffman_decode(encoded_data, reverse_mapping)`. -/
def huffman_decode (encoded_data : List Bool)
    (reverse_mapping : List (BitString × Nat)) : List Nat :=
  if encoded_data = [] then [] else decodeLoop reverse_mapping encoded_data []

/-- `int(byte_string, 2)`: a bitstring read as a binary numeral. -/
def bitsToNat (bits : BitString) : Nat :=
  bits.foldl (fun acc b => 2 * acc + (if b then 1 else 0)) 0

/-- `format(byte, '0wb')`: the low `width` bits of `n`, most significant
first (for `n < 2 ^ width` this is exactly the binary rendering). -/
def natToBits : Nat → Nat → BitString
  | 0, _ => []
  | width + 1, n => natToBits width (n / 2) ++ [decide (n % 2 = 1)]

/-- The `for i in range(0, len(padded_text), 8)` packing loop: convert each
8-bit slice with `int(byte, 2)`; a final slice shorter than 8 bits is
converted as-is (never hit on padded input, whose length is a multiple
of 8). -/
def packBits : List Bool → List Nat
  | [] => []
  | b0 :: b1 :: b2 :: b3 :: b4 :: b5 :: b6 :: b7 :: rest =>
    bitsToNat [b0, b1, b2, b3, b4, b5, b6, b7] :: packBits rest
  | l => [bitsToNat l]

/-- The serialized payload of `encode_data` / input of `decode_file`:
pickled metadata (`padding`, `original_size`, `reverse_mapping`) followed by
the packed bytes. -/
structure Payload where
  padding : Nat
  original_size : Nat
  reverse_mapping : List (BitString × Nat)
  encoded_bytes : List Nat
deriving DecidableEq

/-- The payload assembled by `encode_data(data)` (and identically by
`encode_file`): `padding = 8 - len % 8 if len % 8 != 0 else 0`, the bit
stream zero-padded to a byte boundary and packed. -/
def encodePayload (data : List Nat) : Payload :=
  let enc := huffman_encode data
  let padding := if enc.1.length % 8 ≠ 0 then 8 - enc.1.length % 8 else 0
  { padding := padding
    original_size := data.length
    reverse_mapping := enc.2.2
    encoded_bytes := packBits (enc.1 ++ List.replicate padding false) }

/-- `encode_data(data)`: after assembling the payload the function computes
`compression_ratio = (original_size - compressed_size) / original_size * 100`;
for empty input `original_size = 0` and the division raises
`ZeroDivisionError`, so nothing is returned.  The raise is modelled as
`Except.error ()`; the returned float ratio (not used by any claim) is
omitted from the `ok` value. -/
def encode_data (data : List Nat) : Except Unit Payload :=
  if data.length = 0 then Except.error () else Except.ok (encodePayload data)

/-- `decode_file` on an in-memory payload (file I/O dropped): rebuild the
bit string from the packed bytes (`format(byte, '08b')`, MSB first), strip
`padding` bits from the tail (`binary_string[:-padding] if padding > 0`),
then run `huffman_decode`.  `original_size` is not consulted. -/
def decode_payload (p : Payload) : List Nat :=
  let binary_string := (p.encoded_bytes.map (natToBits 8)).flatten
  let encoded_text :=
    if p.padding > 0 then binary_string.take (binary_string.length - p.padding)
    else binary_string
  huffman_decode encoded_text p.reverse_mapping

/-! ## Server: transfer registry and channel handlers (`multi_server.py`) -/

/-- One entry of `self.transfers`: the dict created by the `prepare` command,
plus the `decoded_path` key added after a successful decode. -/
structure TransferRecord where
  filename : String
  filesize : Nat
  status : String
  dest_path : String
  decoded_path : Option String := none
deriving DecidableEq

/-- The registry `self.transfers`, a dict keyed by transfer id. -/
abbrev Registry := List (String × TransferRecord)

/-- Dict update `self.transfers[id][...] = ...`: rewrite the first (unique)
entry with the given key, leave everything else untouched. -/
def updateFirst (k : String) (f : TransferRecord → TransferRecord) :
    Registry → Registry
  | [] => []
  | (k', v) :: rest =>
    if k' = k then (k', f v) :: rest else (k', v) :: updateFirst k f rest

/-- A JSON control reply `{"status": ..., "transfer_id": ...}`. -/
structure ControlReply where
  status : String
  transfer_id : String
deriving DecidableEq

/-- The `elif command == 'cancel'` branch of `handle_control_connection`:
set the record's status to `"cancelled"` when the id is registered (no
other guard), and reply `{"status":"cancelled","transfer_id":id}` in every
case. -/
def handle_cancel (transfers : Registry) (transfer_id : String) :
    Registry × ControlReply :=
  ((afind transfer_id transfers).elim transfers
     (fun _ => updateFirst transfer_id (fun r => { r with status := "cancelled" }) transfers),
   { status := "cancelled", transfer_id := transfer_id })

/-- The `while received < filesize` receive loop of `handle_data_connection`:
consume chunk frames while the running total is below `filesize`; an empty
element or the end of the list models `receive_message` returning `None`
(stream closed), which breaks the loop.  Returns the final byte total. -/
def recvLoop (filesize : Nat) : List (List Nat) → Nat → Nat
  | [], received => received
  | chunk :: rest, received =>
    if received < filesize then
      if chunk = [] then received
      else recvLoop filesize rest (received + chunk.length)
    else received

/-- Observable outcome of one data-channel session: the registry afterwards,
the frames sent back on the socket, and the successive values written to the
record's `status` field. -/
structure DataResult where
  transfers : Registry
  sent : List String
  status_writes : List String
deriving DecidableEq

/-- `handle_data_connection`, from the parsed metadata frame on: look up the
transfer id (silently return on a miss), mark the record `receiving`, send
`"READY"`, run the receive loop over the chunk frames, then either
`received == filesize` (mark `received`, run the decode subprocess whose
result is the `decode_result` argument — the decoded path on success, `None`
on failure — mark `decoded`/`decode_failed`, send `"COMPLETE"`) or a short
read (mark `incomplete`, send `"INCOMPLETE"`). -/
def handle_data_connection (transfers : Registry) (transfer_id : String)
    (decode_result : Option String) (chunks : List (List Nat)) : DataResult :=
  match afind transfer_id transfers with
  | none => { transfers := transfers, sent := [], status_writes := [] }
  | some transfer =>
    let t1 := updateFirst transfer_id (fun r => { r with status := "receiving" }) transfers
    let received := recvLoop transfer.filesize chunks 0
    if received = transfer.filesize then
      let t2 := updateFirst transfer_id (fun r => { r with status := "received" }) t1
      let t3 :=
        match decode_result with
        | some p =>
          updateFirst transfer_id
            (fun r => { r with status := "decoded", decoded_path := some p }) t2
        | none => updateFirst transfer_id (fun r => { r with status := "decode_failed" }) t2
      { transfers := t3
        sent := ["READY", "COMPLETE"]
        status_writes := ["receiving", "received",
          match decode_result with | some _ => "decoded" | none => "decode_failed"] }
    else
      { transfers := updateFirst transfer_id (fun r => { r with status := "incomplete" }) t1
        sent := ["READY", "INCOMPLETE"]
        status_writes := ["receiving", "incomplete"] }

/-- The byte values at the leaves of a tree, left to right. -/
def leafChars : Tree → List Nat
  | .leaf c => [c]
  | .node l r => leafChars l ++ leafChars r

/-- The multiset of leaf byte values across a queue. -/
def charsOf (q : List (Tree × Nat)) : List Nat :=
  (q.map (fun p => leafChars p.1)).flatten

/-! ## Association-list and registry lemmas -/

theorem afind_updateFirst (k : String) (f : TransferRecord → TransferRecord) :
    ∀ l : Registry, afind k (updateFirst k f l) = (afind k l).map f := by
  intro l
  induction l with
  | nil => rfl
  | cons x rest ih =>
    obtain ⟨k', v⟩ := x
    by_cases h : k' = k <;> simp [updateFirst, afind, h, ih]

/-! ## Bit-packing lemmas -/

theorem bitsToNat_append_singleton (l : List Bool) (b : Bool) :
    bitsToNat (l ++ [b]) = 2 * bitsToNat l + (if b then 1 else 0) := by
  simp [bitsToNat, List.foldl_append]

theorem bitsToNat_lt (l : List Bool) : bitsToNat l < 2 ^ l.length := by
  induction l using List.reverseRecOn with
  | nil => simp [bitsToNat]
  | append_singleton l b ih =>
    rw [bitsToNat_append_singleton]
    simp only [List.length_append, List.length_singleton, pow_succ]
    cases b <;> simp <;> omega

theorem natToBits_bitsToNat (l : List Bool) : natToBits l.length (bitsToNat l) = l := by
  induction l using List.reverseRecOn with
  | nil => rfl
  | append_singleton l b ih =>
    rw [bitsToNat_append_singleton]
    simp only [List.length_append, List.length_singleton, natToBits]
    have hdiv : (2 * bitsToNat l + (if b then 1 else 0)) / 2 = bitsToNat l := by
      cases b <;> simp <;> omega
    have hmod : decide ((2 * bitsToNat l + (if b then 1 else 0)) % 2 = 1) = b := by
      cases b <;> simp <;> omega
    rw [hdiv, hmod, ih]

/-- Packing a byte-aligned bit list: byte count times 8 recovers the bit
length, and unpacking each byte with `format(byte, '08b')` recovers the
bits. -/
theorem packBits_spec : ∀ (n : Nat) (l : List Bool), l.length = n → l.length % 8 = 0 →
    (packBits l).length * 8 = l.length ∧
    ((packBits l).map (natToBits 8)).flatten = l := by
  intro n
  induction n using Nat.strong_induction_on with
  | _ n ih =>
    intro l hlen hmod
    rcases l with _ | ⟨b0, _ | ⟨b1, _ | ⟨b2, _ | ⟨b3, _ | ⟨b4, _ | ⟨b5, _ | ⟨b6, _ | ⟨b7, rest⟩⟩⟩⟩⟩⟩⟩⟩
    · simp [packBits]
    · simp at hmod
    · simp at hmod
    · simp at hmod
    · simp at hmod
    · simp at hmod
    · simp at hmod
    · simp at hmod
    · have hrest : rest.length % 8 = 0 := by
        simp only [List.length_cons] at hmod; omega
      have hlt : rest.length < n := by
        simp only [List.length_cons] at hlen; omega
      obtain ⟨ihlen, ihflat⟩ := ih rest.length hlt rest rfl hrest
      have heq : packBits (b0 :: b1 :: b2 :: b3 :: b4 :: b5 :: b6 :: b7 :: rest)
          = bitsToNat [b0, b1, b2, b3, b4, b5, b6, b7] :: packBits rest := rfl
      have hbyte : natToBits 8 (bitsToNat [b0, b1, b2, b3, b4, b5, b6, b7])
          = [b0, b1, b2, b3, b4, b5, b6, b7] :=
        natToBits_bitsToNat [b0, b1, b2, b3, b4, b5, b6, b7]
      constructor
      · simp only [heq, List.length_cons, ihlen]; omega
      · simp only [heq, List.map_cons, List.flatten_cons, hbyte, ihflat]
        rfl

/-- Length of the code-concatenation fold: the accumulated length plus the
sum of the per-symbol code lengths. -/
theorem foldl_append_length (f : Nat → BitString) :
    ∀ (l : List Nat) (acc : BitString),
      (l.foldl (fun a b => a ++ f b) acc).length
        = acc.length + (l.map (fun b => (f b).length)).sum := by
  intro l
  induction l with
  | nil => simp
  | cons a l ih =>
    intro acc
    simp only [List.foldl_cons, List.map_cons, List.sum_cons, ih]
    simp [Nat.add_assoc]

/-- Unfolding `huffman_encode` on non-empty data whose tree was built. -/
theorem huffman_encode_eq_of_tree (data : List Nat) (root : Tree) (hdata : data ≠ [])
    (hbt : build_huffman_tree data = some root) :
    huffman_encode data
      = (data.foldl (fun acc byte => acc ++ (afind byte (build_codes root [])).getD []) [],
         build_codes root [],
         (build_codes root []).map (fun p => (p.2, p.1))) := by
  unfold huffman_encode
  rw [if_neg hdata, hbt]

/-- Unfolding `huffman_encode` in the (unreachable) treeless branch. -/
theorem huffman_encode_eq_of_none (data : List Nat) (hdata : data ≠ [])
    (hbt : build_huffman_tree data = none) :
    huffman_encode data = ([], [], []) := by
  unfold huffman_encode
  rw [if_neg hdata, hbt]

/-! ## Claim theorems: padding and the encode failure path -/

/-- **C9.** For every input, the padding computed by `encode_data` satisfies
`paddingBits = (8 - bitlength % 8) % 8`, hence `paddingBits ≤ 7` with
`paddingBits = 0` exactly when the pre-padding bit length is already a
multiple of 8, and `len(packedBits) * 8 - paddingBits` equals the sum of the
code lengths over the original input symbols. -/
theorem padding_invariant (data : List Nat) :
    (encodePayload data).padding = (8 - (huffman_encode data).1.length % 8) % 8 ∧
    (encodePayload data).padding ≤ 7 ∧
    ((encodePayload data).padding = 0 ↔ (huffman_encode data).1.length % 8 = 0) ∧
    (encodePayload data).encoded_bytes.length * 8
      = (huffman_encode data).1.length + (encodePayload data).padding ∧
    (encodePayload data).encoded_bytes.length * 8 - (encodePayload data).padding
      = (data.map (fun byte =>
          ((afind byte (huffman_encode data).2.1).getD []).length)).sum := by
  set L := (huffman_encode data).1.length with hL
  have hpad : (encodePayload data).padding = if L % 8 ≠ 0 then 8 - L % 8 else 0 := rfl
  have hmod8 : L % 8 < 8 := Nat.mod_lt _ (by omega)
  have hpacked : (encodePayload data).encoded_bytes
      = packBits ((huffman_encode data).1 ++ List.replicate (encodePayload data).padding false) :=
    rfl
  have hplen : ((huffman_encode data).1 ++
      List.replicate (encodePayload data).padding false).length
      = L + (encodePayload data).padding := by
    simp [hL]
  have hpmod : (L + (encodePayload data).padding) % 8 = 0 := by
    rw [hpad]; by_cases h : L % 8 = 0 <;> simp [h] <;> omega
  have hlen8 : (encodePayload data).encoded_bytes.length * 8 = L + (encodePayload data).padding := by
    rw [hpacked]
    have := (packBits_spec ((huffman_encode data).1 ++
      List.replicate (encodePayload data).padding false).length _ rfl
      (by rw [hplen]; exact hpmod)).1
    rw [this, hplen]
  have hsum : L = (data.map (fun byte =>
      ((afind byte (huffman_encode data).2.1).getD []).length)).sum := by
    by_cases hdata : data = []
    · subst hdata; simp [hL, huffman_encode]
    · rcases hbt : build_huffman_tree data with _ | root
      · simp [hL, huffman_encode_eq_of_none data hdata hbt, afind]
      · simp only [hL, huffman_encode_eq_of_tree data root hdata hbt]
        rw [foldl_append_length]
        simp
  refine ⟨?_, ?_, ?_, hlen8, ?_⟩
  · rw [hpad]; by_cases h : L % 8 = 0 <;> simp [h] <;> omega
  · rw [hpad]; by_cases h : L % 8 = 0 <;> simp [h] <;> omega
  · rw [hpad]; by_cases h : L % 8 = 0 <;> simp [h] <;> omega
  · rw [hlen8, ← hsum]; omega

/-- **C3.** `encode_data(b"")` does not succeed: with `original_size = 0`
the compression-ratio computation
`(original_size - compressed_size) / original_size * 100` divides by zero
and the call raises `ZeroDivisionError` instead of returning the (empty)
payload it has already assembled. -/
theorem encode_data_empty_raises : encode_data [] = Except.error () := rfl

/-! ## Huffman-tree construction lemmas -/

theorem mem_uniqueKeysFrom (x : Nat) :
    ∀ (l seen : List Nat), x ∈ uniqueKeysFrom seen l ↔ x ∈ l ∧ x ∉ seen := by
  intro l
  induction l with
  | nil => intro seen; simp [uniqueKeysFrom]
  | cons a l ih =>
    intro seen
    by_cases ha : a ∈ seen
    · simp only [uniqueKeysFrom, if_pos ha, ih, List.mem_cons]
      constructor
      · rintro ⟨h1, h2⟩; exact ⟨Or.inr h1, h2⟩
      · rintro ⟨h1 | h1, h2⟩
        · subst h1; exact absurd ha h2
        · exact ⟨h1, h2⟩
    · simp only [uniqueKeysFrom, if_neg ha, List.mem_cons, ih]
      constructor
      · rintro (rfl | ⟨h1, h2⟩)
        · exact ⟨Or.inl rfl, ha⟩
        · exact ⟨Or.inr h1, fun h => h2 (Or.inr h)⟩
      · rintro ⟨h1 | h1, h2⟩
        · exact Or.inl h1
        · by_cases hxa : x = a
          · exact Or.inl hxa
          · exact Or.inr ⟨h1, fun h => h.elim hxa h2⟩

theorem nodup_uniqueKeysFrom : ∀ (l seen : List Nat), (uniqueKeysFrom seen l).Nodup := by
  intro l
  induction l with
  | nil => intro seen; simp [uniqueKeysFrom]
  | cons a l ih =>
    intro seen
    by_cases ha : a ∈ seen
    · rw [uniqueKeysFrom, if_pos ha]; exact ih seen
    · rw [uniqueKeysFrom, if_neg ha, List.nodup_cons]
      exact ⟨fun hmem => ((mem_uniqueKeysFrom a l (a :: seen)).mp hmem).2
        (List.mem_cons_self a seen), ih (a :: seen)⟩

theorem mem_uniqueKeys (x : Nat) (data : List Nat) : x ∈ uniqueKeys data ↔ x ∈ data := by
  rw [uniqueKeys, mem_uniqueKeysFrom]; simp

theorem nodup_uniqueKeys (data : List Nat) : (uniqueKeys data).Nodup :=
  nodup_uniqueKeysFrom data []

theorem uniqueKeys_ne_nil (data : List Nat) (h : data ≠ []) : uniqueKeys data ≠ [] := by
  rcases data with _ | ⟨a, l⟩
  · exact absurd rfl h
  · intro hnil
    have ha : a ∈ uniqueKeys (a :: l) := (mem_uniqueKeys a (a :: l)).mpr (by simp)
    rw [hnil] at ha
    exact (List.not_mem_nil a) ha

theorem popMin_eq_none : ∀ l : List (Tree × Nat), popMin l = none ↔ l = [] := by
  intro l
  cases l with
  | nil => simp [popMin]
  | cons x xs =>
    simp only [popMin]
    cases h : popMin xs with
    | none => simp
    | some m =>
      obtain ⟨m, rest⟩ := m
      by_cases hle : x.2 ≤ m.2 <;> simp [hle]

theorem popMin_perm :
    ∀ (l : List (Tree × Nat)) (m : Tree × Nat) (rest : List (Tree × Nat)),
      popMin l = some (m, rest) → List.Perm l (m :: rest) := by
  intro l
  induction l with
  | nil => intro m rest h; simp [popMin] at h
  | cons x xs ih =>
    intro m rest h
    cases hxs : popMin xs with
    | none =>
      simp only [popMin, hxs, Option.some.injEq, Prod.mk.injEq] at h
      have hnil : xs = [] := (popMin_eq_none xs).mp hxs
      subst hnil
      obtain ⟨rfl, rfl⟩ := h
      exact List.Perm.refl _
    | some p =>
      obtain ⟨m', rest'⟩ := p
      simp only [popMin, hxs] at h
      by_cases hle : x.2 ≤ m'.2
      · rw [if_pos hle] at h
        simp only [Option.some.injEq, Prod.mk.injEq] at h
        obtain ⟨rfl, rfl⟩ := h
        exact List.Perm.refl _
      · rw [if_neg hle] at h
        simp only [Option.some.injEq, Prod.mk.injEq] at h
        obtain ⟨rfl, rfl⟩ := h
        exact ((ih _ rest' hxs).cons x).trans (List.Perm.swap _ x rest')

theorem charsOf_perm {q q' : List (Tree × Nat)} (h : List.Perm q q') :
    List.Perm (charsOf q) (charsOf q') :=
  (h.map _).flatten

theorem buildLoop_small (fuel : Nat) (q : List (Tree × Nat)) (h : q.length ≤ 1) :
    buildLoop (fuel + 1) q = q := by
  rw [buildLoop, if_pos h]

theorem buildLoop_step (fuel : Nat) (q : List (Tree × Nat)) (a b : Tree × Nat)
    (q1 q2 : List (Tree × Nat)) (hlen : ¬ q.length ≤ 1)
    (h1 : popMin q = some (a, q1)) (h2 : popMin q1 = some (b, q2)) :
    buildLoop (fuel + 1) q = buildLoop fuel ((Tree.node a.1 b.1, a.2 + b.2) :: q2) := by
  rw [buildLoop, if_neg hlen]
  simp only [h1, h2]

/-- In the non-trivial loop case both pops succeed, with a one-shorter queue
each time. -/
theorem popMin_twice (q : List (Tree × Nat)) (hlen : ¬ q.length ≤ 1) :
    ∃ a q1 b q2, popMin q = some (a, q1) ∧ popMin q1 = some (b, q2) ∧
      q.length = q1.length + 1 ∧ q1.length = q2.length + 1 := by
  cases hp1 : popMin q with
  | none =>
    exfalso
    have h0 := (popMin_eq_none q).mp hp1
    subst h0
    simp at hlen
  | some p1 =>
    obtain ⟨a, q1⟩ := p1
    have hl1 : q.length = q1.length + 1 := by
      have := (popMin_perm q a q1 hp1).length_eq
      simpa using this
    cases hp2 : popMin q1 with
    | none =>
      exfalso
      have h0 := (popMin_eq_none q1).mp hp2
      subst h0
      simp at hl1
      omega
    | some p2 =>
      obtain ⟨b, q2⟩ := p2
      have hl2 : q1.length = q2.length + 1 := by
        have := (popMin_perm q1 b q2 hp2).length_eq
        simpa using this
      exact ⟨a, q1, b, q2, rfl, hp2, hl1, hl2⟩

/-- The merge loop only rearranges the leaf values of the queue. -/
theorem buildLoop_chars_perm : ∀ (fuel : Nat) (q : List (Tree × Nat)),
    List.Perm (charsOf (buildLoop fuel q)) (charsOf q) := by
  intro fuel
  induction fuel with
  | zero => intro q; exact List.Perm.refl _
  | succ fuel ih =>
    intro q
    by_cases hlen : q.length ≤ 1
    · rw [buildLoop_small fuel q hlen]
    · obtain ⟨a, q1, b, q2, hp1, hp2, _, _⟩ := popMin_twice q hlen
      have hq : List.Perm q (a :: q1) := popMin_perm q a q1 hp1
      have hq1 : List.Perm q1 (b :: q2) := popMin_perm q1 b q2 hp2
      rw [buildLoop_step fuel q a b q1 q2 hlen hp1 hp2]
      refine (ih _).trans ?_
      have hstep : charsOf ((Tree.node a.1 b.1, a.2 + b.2) :: q2)
          = leafChars a.1 ++ (leafChars b.1 ++ charsOf q2) := by
        simp [charsOf, leafChars]
      rw [hstep]
      have hright : List.Perm (leafChars b.1 ++ charsOf q2) (charsOf q1) := by
        have hcons : charsOf (b :: q2) = leafChars b.1 ++ charsOf q2 := by simp [charsOf]
        rw [← hcons]
        exact (charsOf_perm hq1).symm
      refine (List.Perm.append_left (leafChars a.1) hright).trans ?_
      have hcons : charsOf (a :: q1) = leafChars a.1 ++ charsOf q1 := by simp [charsOf]
      rw [← hcons]
      exact (charsOf_perm hq).symm

/-- With fuel at least `|q| - 1`, the merge loop reduces a non-empty queue to
a single tree (each iteration removes two entries and adds one). -/
theorem buildLoop_length_one : ∀ (fuel : Nat) (q : List (Tree × Nat)),
    q ≠ [] → q.length ≤ fuel + 1 → (buildLoop fuel q).length = 1 := by
  intro fuel
  induction fuel with
  | zero =>
    intro q hne hlen
    have hpos : 0 < q.length := List.length_pos.mpr hne
    rw [buildLoop]
    omega
  | succ fuel ih =>
    intro q hne hlen
    by_cases h1 : q.length ≤ 1
    · rw [buildLoop_small fuel q h1]
      have hpos : 0 < q.length := List.length_pos.mpr hne
      omega
    · obtain ⟨a, q1, b, q2, hp1, hp2, hlq, hlq1⟩ := popMin_twice q h1
      rw [buildLoop_step fuel q a b q1 q2 h1 hp1 hp2]
      exact ih _ (List.cons_ne_nil _ _) (by simp only [List.length_cons]; omega)

/-- On Nat lists, flattening singleton lists is the identity. -/
theorem flatten_map_singleton : ∀ keys : List Nat,
    (keys.map (fun c => [c])).flatten = keys := by
  intro keys
  induction keys with
  | nil => rfl
  | cons c l ih => simp [ih]

/-- For non-empty data, `build_huffman_tree` yields a tree whose leaf values
are a permutation of the distinct bytes of the input. -/
theorem build_huffman_tree_spec (data : List Nat) (hdata : data ≠ []) :
    ∃ t : Tree, build_huffman_tree data = some t ∧
      List.Perm (leafChars t) (uniqueKeys data) := by
  have hchars0 : charsOf (initQueue data) = uniqueKeys data := by
    rw [charsOf, initQueue, List.map_map]
    have : ((fun p : Tree × Nat => leafChars p.1) ∘ fun c => (Tree.leaf c, data.count c))
        = fun c => [c] := by
      funext c; rfl
    rw [this, flatten_map_singleton]
  have hne : initQueue data ≠ [] := by
    intro h
    exact uniqueKeys_ne_nil data hdata (List.map_eq_nil_iff.mp h)
  have hone := buildLoop_length_one (initQueue data).length (initQueue data) hne (by omega)
  rcases hfin : buildLoop (initQueue data).length (initQueue data) with _ | ⟨t, rest⟩
  · rw [hfin] at hone; simp at hone
  · have hrest : rest = [] := by
      rw [hfin] at hone
      simp only [List.length_cons, Nat.add_left_eq_self] at hone
      exact List.length_eq_zero.mp hone
    subst hrest
    refine ⟨t.1, ?_, ?_⟩
    · unfold build_huffman_tree
      rw [hfin]
    · have hperm := buildLoop_chars_perm (initQueue data).length (initQueue data)
      rw [hfin, hchars0] at hperm
      have hsingle : charsOf [t] = leafChars t.1 := by simp [charsOf]
      rw [hsingle] at hperm
      exact hperm

/-! ## Code-table lemmas -/

theorem build_codes_fst : ∀ (t : Tree) (p : BitString),
    (build_codes t p).map Prod.fst = leafChars t := by
  intro t
  induction t with
  | leaf c => intro p; simp [build_codes, leafChars]
  | node l r ihl ihr => intro p; simp [build_codes, leafChars, ihl, ihr]

theorem build_codes_code_nonempty (t : Tree) : ∀ (p : BitString) (e : Nat × BitString),
    e ∈ build_codes t p → e.2 ≠ [] := by
  induction t with
  | leaf c =>
    intro p e he
    simp only [build_codes, List.mem_singleton] at he
    subst he
    by_cases hp : p = [] <;> simp [hp]
  | node l r ihl ihr =>
    intro p e he
    rcases List.mem_append.mp he with h | h
    · exact ihl _ e h
    · exact ihr _ e h

theorem build_codes_prefix (t : Tree) : ∀ (p : BitString), p ≠ [] →
    ∀ e ∈ build_codes t p, p <+: e.2 := by
  induction t with
  | leaf c =>
    intro p hp e he
    simp only [build_codes, List.mem_singleton] at he
    subst he
    simp [if_neg hp]
  | node l r ihl ihr =>
    intro p _ e he
    rcases List.mem_append.mp he with h | h
    · exact (List.prefix_append p [false]).trans (ihl (p ++ [false]) (by simp) e h)
    · exact (List.prefix_append p [true]).trans (ihr (p ++ [true]) (by simp) e h)

/-- The code table derived from any tree is prefix-free: no entry's
bitstring is a prefix of another entry's bitstring. -/
theorem build_codes_pairwise (t : Tree) : ∀ p : BitString,
    (build_codes t p).Pairwise (fun a b => ¬a.2 <+: b.2 ∧ ¬b.2 <+: a.2) := by
  induction t with
  | leaf c => intro p; simp [build_codes]
  | node l r ihl ihr =>
    intro p
    rw [build_codes, List.pairwise_append]
    refine ⟨ihl _, ihr _, ?_⟩
    intro a ha b hb
    have hpa : (p ++ [false]) <+: a.2 := build_codes_prefix l _ (by simp) a ha
    have hpb : (p ++ [true]) <+: b.2 := build_codes_prefix r _ (by simp) b hb
    constructor
    · intro hab
      have h2 : (p ++ [false]) <+: (p ++ [true]) :=
        List.prefix_of_prefix_length_le (hpa.trans hab) hpb (by simp)
      have h3 : (p ++ [false]) = (p ++ [true]) := h2.eq_of_length (by simp)
      simp at h3
    · intro hba
      have h2 : (p ++ [true]) <+: (p ++ [false]) :=
        List.prefix_of_prefix_length_le (hpb.trans hba) hpa (by simp)
      have h3 : (p ++ [true]) = (p ++ [false]) := h2.eq_of_length (by simp)
      simp at h3

/-! ## Lookup lemmas -/

theorem afind_isSome_of_mem {α β : Type} [DecidableEq α] (k : α) :
    ∀ l : List (α × β), k ∈ l.map Prod.fst → ∃ v, afind k l = some v := by
  intro l
  induction l with
  | nil => intro h; simp at h
  | cons e rest ih =>
    obtain ⟨k', v'⟩ := e
    intro hmem
    by_cases hk : k' = k
    · exact ⟨v', by simp [afind, hk]⟩
    · simp only [List.map_cons, List.mem_cons] at hmem
      rcases hmem with heq | hmem
      · exact absurd heq.symm hk
      · obtain ⟨v, hv⟩ := ih hmem
        exact ⟨v, by simp [afind, hk, hv]⟩

theorem afind_mem {α β : Type} [DecidableEq α] (k : α) (v : β) :
    ∀ l : List (α × β), afind k l = some v → (k, v) ∈ l := by
  intro l
  induction l with
  | nil => intro h; simp [afind] at h
  | cons e rest ih =>
    obtain ⟨k', v'⟩ := e
    intro h
    rw [afind] at h
    by_cases hk : k' = k
    · rw [if_pos hk] at h
      injection h with h
      subst h
      subst hk
      exact List.mem_cons_self _ _
    · rw [if_neg hk] at h
      exact List.mem_cons_of_mem _ (ih h)

/-- Looking a code up in the reversed mapping returns its symbol, provided
the codes are distinct (always true for a Huffman table). -/
theorem afind_swap_eq (s : Nat) (w : BitString) :
    ∀ codes : List (Nat × BitString), (codes.map Prod.snd).Nodup → (s, w) ∈ codes →
      afind w (codes.map (fun p => (p.2, p.1))) = some s := by
  intro codes
  induction codes with
  | nil => intro _ hmem; simp at hmem
  | cons e rest ih =>
    obtain ⟨s', w'⟩ := e
    intro hnd hmem
    simp only [List.map_cons, List.nodup_cons] at hnd
    obtain ⟨hw', hndrest⟩ := hnd
    rcases List.mem_cons.mp hmem with heq | hmem'
    · injection heq with h1 h2
      subst h1
      subst h2
      simp [afind]
    · by_cases hww : w' = w
      · subst hww
        exact absurd (List.mem_map_of_mem Prod.snd hmem') hw'
      · simp only [List.map_cons, afind, if_neg hww]
        exact ih hndrest hmem'

/-- Any hit in the reversed mapping comes from a code-table entry. -/
theorem mem_of_afind_rev (x : Nat) (p : BitString) :
    ∀ codes : List (Nat × BitString),
      afind p (codes.map (fun q => (q.2, q.1))) = some x → (x, p) ∈ codes := by
  intro codes h
  have hmem := afind_mem p x (codes.map fun q => (q.2, q.1)) h
  obtain ⟨⟨a, b⟩, hmem', heq⟩ := List.mem_map.mp hmem
  injection heq with h1 h2
  subst h1
  subst h2
  exact hmem'

/-! ## Greedy-decode lemmas -/

/-- The scanner consumes exactly one code: if no strict prefix of `c`
(relative to the already-accumulated `cur`) is in the table but `cur ++ c`
is, the loop emits that symbol and restarts cleanly on `rest`. -/
theorem decodeLoop_consume (rev : List (BitString × Nat)) :
    ∀ (c cur : BitString) (sym : Nat) (rest : List Bool),
      c ≠ [] → afind (cur ++ c) rev = some sym →
      (∀ p, p <+: c → p ≠ c → afind (cur ++ p) rev = none) →
      decodeLoop rev (c ++ rest) cur = sym :: decodeLoop rev rest [] := by
  intro c
  induction c with
  | nil => intro cur sym rest hne; exact absurd rfl hne
  | cons b c' ih =>
    intro cur sym rest _ hfind hpref
    rcases c' with _ | ⟨b2, c''⟩
    · simp only [List.cons_append, List.nil_append, decodeLoop, hfind]
      rfl
    · have hb : afind (cur ++ [b]) rev = none := by
        refine hpref [b] ⟨b2 :: c'', rfl⟩ ?_
        simp
      simp only [List.cons_append, decodeLoop, hb]
      have hfind' : afind ((cur ++ [b]) ++ (b2 :: c'')) rev = some sym := by
        rw [List.append_assoc]
        simpa using hfind
      have hpref' : ∀ p, p <+: (b2 :: c'') → p ≠ (b2 :: c'') →
          afind ((cur ++ [b]) ++ p) rev = none := by
        intro p hp hpe
        have h1 : (b :: p) <+: (b :: b2 :: c'') := by
          obtain ⟨t, ht⟩ := hp
          exact ⟨t, by rw [List.cons_append, ht]⟩
        have h2 : (b :: p) ≠ (b :: b2 :: c'') := by
          intro h
          exact hpe (List.cons.inj h).2
        have := hpref (b :: p) h1 h2
        rw [List.append_assoc]
        simpa using this
      exact ih (cur ++ [b]) sym rest (List.cons_ne_nil b2 c'') hfind' hpref'

/-- Decoding the concatenation of valid codes followed by any tail emits
exactly the encoded symbols, then continues on the tail with an empty
accumulator. -/
theorem decodeLoop_flatten (rev : List (BitString × Nat)) (getc : Nat → BitString) :
    ∀ (data : List Nat) (tail : List Bool),
      (∀ s ∈ data, getc s ≠ [] ∧ afind (getc s) rev = some s ∧
        (∀ p, p <+: getc s → p ≠ getc s → afind p rev = none)) →
      decodeLoop rev ((data.map getc).flatten ++ tail) []
        = data ++ decodeLoop rev tail [] := by
  intro data
  induction data with
  | nil => intro tail _; simp
  | cons s data' ih =>
    intro tail hs
    obtain ⟨hne, hfind, hpref⟩ := hs s (List.mem_cons_self s data')
    simp only [List.map_cons, List.flatten_cons, List.append_assoc]
    rw [decodeLoop_consume rev (getc s) [] s _ hne (by simpa using hfind)
      (fun p hp hpe => by simpa using hpref p hp hpe)]
    rw [ih tail (fun x hx => hs x (List.mem_cons_of_mem _ hx))]
    rfl

/-- A run of bits none of whose nonempty prefixes (relative to `cur`) hits
the table decodes to nothing: the loop accumulates to the end and the
leftover partial code is silently discarded. -/
theorem decodeLoop_no_match (rev : List (BitString × Nat)) :
    ∀ (t : List Bool) (cur : BitString),
      (∀ p, p <+: t → p ≠ [] → afind (cur ++ p) rev = none) →
      decodeLoop rev t cur = [] := by
  intro t
  induction t with
  | nil => intro cur _; rfl
  | cons b t' ih =>
    intro cur h
    have hb : afind (cur ++ [b]) rev = none := h [b] ⟨t', rfl⟩ (by simp)
    simp only [decodeLoop, hb]
    refine ih (cur ++ [b]) ?_
    intro p hp hpne
    have h1 : (b :: p) <+: (b :: t') := by
      obtain ⟨u, hu⟩ := hp
      exact ⟨u, by rw [List.cons_append, hu]⟩
    have := h (b :: p) h1 (by simp)
    rw [List.append_assoc]
    simpa using this

/-- The encode fold is the flattened list of per-symbol codes. -/
theorem foldl_append_eq_flatten (f : Nat → BitString) :
    ∀ (l : List Nat) (acc : BitString),
      l.foldl (fun a b => a ++ f b) acc = acc ++ (l.map f).flatten := by
  intro l
  induction l with
  | nil => intro acc; simp
  | cons a l ih =>
    intro acc
    simp only [List.foldl_cons, List.map_cons, List.flatten_cons, ih, List.append_assoc]

/-- The per-symbol decode conditions for the code table of one encode call:
every input byte has a non-empty code, the reversed mapping takes that code
back to the byte, and no other prefix hits the reversed mapping. -/
theorem code_conditions (data : List Nat) (hdata : data ≠ []) :
    ∃ root : Tree, build_huffman_tree data = some root ∧
      (∀ s ∈ data,
        (afind s (build_codes root [])).getD [] ≠ [] ∧
        afind ((afind s (build_codes root [])).getD [])
          ((build_codes root []).map (fun p => (p.2, p.1))) = some s ∧
        (∀ p, p <+: (afind s (build_codes root [])).getD [] →
          p ≠ (afind s (build_codes root [])).getD [] →
          afind p ((build_codes root []).map (fun p => (p.2, p.1))) = none)) := by
  obtain ⟨root, hbt, hperm⟩ := build_huffman_tree_spec data hdata
  refine ⟨root, hbt, ?_⟩
  have hpw := build_codes_pairwise root []
  have hsnd : ((build_codes root []).map Prod.snd).Nodup := by
    refine List.pairwise_map.mpr (hpw.imp ?_)
    intro a b hab heq
    exact hab.1 (heq ▸ List.prefix_refl _)
  intro s hsdata
  have hsmem : s ∈ (build_codes root []).map Prod.fst := by
    rw [build_codes_fst]
    exact hperm.mem_iff.mpr ((mem_uniqueKeys s data).mpr hsdata)
  obtain ⟨w, hw⟩ := afind_isSome_of_mem s (build_codes root []) hsmem
  have hwmem : (s, w) ∈ build_codes root [] := afind_mem s w _ hw
  have hwne : w ≠ [] := build_codes_code_nonempty root [] (s, w) hwmem
  rw [hw]
  refine ⟨by simpa using hwne, ?_, ?_⟩
  · simpa using afind_swap_eq s w (build_codes root []) hsnd hwmem
  · intro p hp hpe
    simp only [Option.getD_some] at hp hpe
    by_contra hfind
    obtain ⟨x, hx⟩ := Option.ne_none_iff_exists'.mp hfind
    have hxmem : (x, p) ∈ build_codes root [] := mem_of_afind_rev x p _ hx
    have hne : (x, p) ≠ (s, w) := by
      intro h
      exact hpe (congrArg Prod.snd h)
    have hsym : Symmetric (fun a b : Nat × BitString => ¬a.2 <+: b.2 ∧ ¬b.2 <+: a.2) := by
      intro a b hab
      exact ⟨hab.2, hab.1⟩
    have := (hpw.forall hsym) hxmem hwmem hne
    exact this.1 hp

/-! ## Claim theorems: data channel and control channel -/

/-- **C4.** With the transfer id registered: when the receive loop's byte
total exactly equals the declared size, the handler writes
`receiving, received,` then `decoded` (decode subprocess succeeded) or
`decode_failed` (it failed) to the record and sends `READY, COMPLETE`;
when the stream closes short of the declared size it writes
`receiving, incomplete` and sends `READY, INCOMPLETE`. -/
theorem data_channel_outcome (transfers : Registry) (id : String) (rec : TransferRecord)
    (dres : Option String) (chunks : List (List Nat))
    (hreg : afind id transfers = some rec) :
    (recvLoop rec.filesize chunks 0 = rec.filesize →
      (handle_data_connection transfers id dres chunks).sent = ["READY", "COMPLETE"] ∧
      (handle_data_connection transfers id dres chunks).status_writes
        = ["receiving", "received",
           match dres with | some _ => "decoded" | none => "decode_failed"] ∧
      afind id (handle_data_connection transfers id dres chunks).transfers
        = some (match dres with
                | some p => { rec with status := "decoded", decoded_path := some p }
                | none => { rec with status := "decode_failed" })) ∧
    (recvLoop rec.filesize chunks 0 < rec.filesize →
      (handle_data_connection transfers id dres chunks).sent = ["READY", "INCOMPLETE"] ∧
      (handle_data_connection transfers id dres chunks).status_writes
        = ["receiving", "incomplete"] ∧
      afind id (handle_data_connection transfers id dres chunks).transfers
        = some { rec with status := "incomplete" }) := by
  constructor
  · intro hexact
    simp only [handle_data_connection, hreg, hexact, if_pos rfl]
    rcases dres with _ | p <;>
      simp [afind_updateFirst, hreg]
  · intro hshort
    have hne : ¬ recvLoop rec.filesize chunks 0 = rec.filesize := by omega
    simp only [handle_data_connection, hreg, if_neg hne]
    simp [afind_updateFirst, hreg]

/-- Witness for `data_channel_outcome`: a registered 3-byte transfer either
receives exactly 3 bytes (decode succeeds → `decoded`, `COMPLETE`) or the
stream closes after 2 bytes (→ `incomplete`, `INCOMPLETE`). -/
theorem data_channel_outcome_witness :
    afind "t1" [("t1", TransferRecord.mk "f.enc" 3 "prepared" "d" none)]
      = some (TransferRecord.mk "f.enc" 3 "prepared" "d" none) ∧
    ((handle_data_connection [("t1", TransferRecord.mk "f.enc" 3 "prepared" "d" none)]
        "t1" (some "p") [[1, 2, 3]]).sent = ["READY", "COMPLETE"] ∧
      (handle_data_connection [("t1", TransferRecord.mk "f.enc" 3 "prepared" "d" none)]
        "t1" (some "p") [[1, 2, 3]]).status_writes = ["receiving", "received", "decoded"] ∧
      afind "t1" (handle_data_connection
          [("t1", TransferRecord.mk "f.enc" 3 "prepared" "d" none)]
          "t1" (some "p") [[1, 2, 3]]).transfers
        = some (TransferRecord.mk "f.enc" 3 "decoded" "d" (some "p"))) ∧
    ((handle_data_connection [("t1", TransferRecord.mk "f.enc" 3 "prepared" "d" none)]
        "t1" (some "p") [[1, 2]]).sent = ["READY", "INCOMPLETE"] ∧
      (handle_data_connection [("t1", TransferRecord.mk "f.enc" 3 "prepared" "d" none)]
        "t1" (some "p") [[1, 2]]).status_writes = ["receiving", "incomplete"] ∧
      afind "t1" (handle_data_connection
          [("t1", TransferRecord.mk "f.enc" 3 "prepared" "d" none)]
          "t1" (some "p") [[1, 2]]).transfers
        = some (TransferRecord.mk "f.enc" 3 "incomplete" "d" none)) :=
  ⟨rfl,
   (data_channel_outcome [("t1", TransferRecord.mk "f.enc" 3 "prepared" "d" none)]
      "t1" (TransferRecord.mk "f.enc" 3 "prepared" "d" none) (some "p") [[1, 2, 3]] rfl).1
     (by decide),
   (data_channel_outcome [("t1", TransferRecord.mk "f.enc" 3 "prepared" "d" none)]
      "t1" (TransferRecord.mk "f.enc" 3 "prepared" "d" none) (some "p") [[1, 2]] rfl).2
     (by decide)⟩

/-- **C5.** A data connection whose metadata frame names an unregistered
transfer id is closed silently: no frame is sent, no status is written, and
the registry is returned unchanged. -/
theorem unknown_transfer_silent_close (transfers : Registry) (id : String)
    (dres : Option String) (chunks : List (List Nat))
    (habsent : afind id transfers = none) :
    handle_data_connection transfers id dres chunks
      = { transfers := transfers, sent := [], status_writes := [] } := by
  simp [handle_data_connection, habsent]

/-- Witness for `unknown_transfer_silent_close`: an id not in a one-entry
registry. -/
theorem unknown_transfer_silent_close_witness :
    afind "t2" [("t1", TransferRecord.mk "f.enc" 3 "prepared" "d" none)] = none ∧
    handle_data_connection [("t1", TransferRecord.mk "f.enc" 3 "prepared" "d" none)]
        "t2" none [[1, 2, 3]]
      = { transfers := [("t1", TransferRecord.mk "f.enc" 3 "prepared" "d" none)],
          sent := [], status_writes := [] } :=
  ⟨rfl, unknown_transfer_silent_close
    [("t1", TransferRecord.mk "f.enc" 3 "prepared" "d" none)] "t2" none [[1, 2, 3]] rfl⟩

/-- **C6.** `cancel` replies `{"status":"cancelled","transfer_id":id}` for
every id, and whenever a record exists for the id — in any current state,
`receiving` included — its status is forced to `cancelled` with no guard. -/
theorem cancel_unconditional (transfers : Registry) (id : String) :
    (handle_cancel transfers id).2 = ControlReply.mk "cancelled" id ∧
    (∀ rec : TransferRecord, afind id transfers = some rec →
      afind id (handle_cancel transfers id).1 = some { rec with status := "cancelled" }) := by
  constructor
  · rfl
  · intro rec hrec
    simp [handle_cancel, hrec, afind_updateFirst]

/-- Witness for `cancel_unconditional`: cancelling a transfer that is
actively `receiving` forces it to `cancelled`. -/
theorem cancel_unconditional_witness :
    (handle_cancel [("t1", TransferRecord.mk "f.enc" 3 "receiving" "d" none)] "t1").2
      = ControlReply.mk "cancelled" "t1" ∧
    afind "t1" (handle_cancel
        [("t1", TransferRecord.mk "f.enc" 3 "receiving" "d" none)] "t1").1
      = some (TransferRecord.mk "f.enc" 3 "cancelled" "d" none) :=
  ⟨(cancel_unconditional [("t1", TransferRecord.mk "f.enc" 3 "receiving" "d" none)] "t1").1,
   (cancel_unconditional [("t1", TransferRecord.mk "f.enc" 3 "receiving" "d" none)] "t1").2
     (TransferRecord.mk "f.enc" 3 "receiving" "d" none) rfl⟩

/-- **C10.** Completion is a strict equality test: when a chunk pushes the
byte total strictly above the declared size, the record is marked
`incomplete` and the reply is `INCOMPLETE`, exactly as for a short read. -/
theorem overshoot_incomplete (transfers : Registry) (id : String) (rec : TransferRecord)
    (dres : Option String) (chunks : List (List Nat))
    (hreg : afind id transfers = some rec)
    (hover : rec.filesize < recvLoop rec.filesize chunks 0) :
    (handle_data_connection transfers id dres chunks).sent = ["READY", "INCOMPLETE"] ∧
    (handle_data_connection transfers id dres chunks).status_writes
      = ["receiving", "incomplete"] ∧
    afind id (handle_data_connection transfers id dres chunks).transfers
      = some { rec with status := "incomplete" } := by
  have hne : ¬ recvLoop rec.filesize chunks 0 = rec.filesize := by omega
  simp only [handle_data_connection, hreg, if_neg hne]
  simp [afind_updateFirst, hreg]

/-- Witness for `overshoot_incomplete`: 2 bytes declared, a single 3-byte
chunk arrives (total 3 > 2) — the transfer ends `incomplete`. -/
theorem overshoot_incomplete_witness :
    afind "t1" [("t1", TransferRecord.mk "f.enc" 2 "prepared" "d" none)]
      = some (TransferRecord.mk "f.enc" 2 "prepared" "d" none) ∧
    (2 : Nat) < recvLoop 2 [[1, 2, 3]] 0 ∧
    (handle_data_connection [("t1", TransferRecord.mk "f.enc" 2 "prepared" "d" none)]
      "t1" none [[1, 2, 3]]).sent = ["READY", "INCOMPLETE"] :=
  ⟨rfl, by decide,
   (overshoot_incomplete [("t1", TransferRecord.mk "f.enc" 2 "prepared" "d" none)]
     "t1" (TransferRecord.mk "f.enc" 2 "prepared" "d" none) none [[1, 2, 3]]
     rfl (by decide)).1⟩

/-! ## Claim theorems: code table, round trip, single symbol, trailing bits -/

/-- **C7.** For any one encode call on non-empty input the code table is
prefix-free — no assigned code is a prefix of another assigned code — and
the symbol-to-code mapping is bijective onto its code set: the symbols are
distinct and so are the codes. -/
theorem code_table_prefix_free (data : List Nat) (hdata : data ≠ []) :
    (huffman_encode data).2.1.Pairwise (fun a b => ¬a.2 <+: b.2 ∧ ¬b.2 <+: a.2) ∧
    ((huffman_encode data).2.1.map Prod.fst).Nodup ∧
    ((huffman_encode data).2.1.map Prod.snd).Nodup := by
  obtain ⟨root, hbt, hperm⟩ := build_huffman_tree_spec data hdata
  rw [huffman_encode_eq_of_tree data root hdata hbt]
  dsimp only
  refine ⟨build_codes_pairwise root [], ?_, ?_⟩
  · rw [build_codes_fst]
    exact hperm.nodup_iff.mpr (nodup_uniqueKeys data)
  · refine List.pairwise_map.mpr ((build_codes_pairwise root []).imp ?_)
    intro a b hab heq
    exact hab.1 (heq ▸ List.prefix_refl _)

/-- Witness for `code_table_prefix_free` at input `b"AB"`. -/
theorem code_table_prefix_free_witness :
    (([65, 66] : List Nat) ≠ []) ∧
    ((huffman_encode [65, 66]).2.1.Pairwise
        (fun a b => ¬a.2 <+: b.2 ∧ ¬b.2 <+: a.2) ∧
      ((huffman_encode [65, 66]).2.1.map Prod.fst).Nodup ∧
      ((huffman_encode [65, 66]).2.1.map Prod.snd).Nodup) :=
  ⟨by decide, code_table_prefix_free [65, 66] (by decide)⟩

/-- Unfolding of `decode_payload` (definitional). -/
theorem decode_payload_def (p : Payload) :
    decode_payload p
      = huffman_decode
          (if p.padding > 0
            then ((p.encoded_bytes.map (natToBits 8)).flatten).take
              ((p.encoded_bytes.map (natToBits 8)).flatten.length - p.padding)
            else (p.encoded_bytes.map (natToBits 8)).flatten)
          p.reverse_mapping := rfl

/-- **C1 (amended: non-empty inputs).** Encoding succeeds and decoding the
produced payload — unpacking the packed bytes, stripping the padding and
greedily matching the reverse mapping — restores the input exactly. -/
theorem encode_decode_roundtrip (data : List Nat) (hdata : data ≠ []) :
    encode_data data = Except.ok (encodePayload data) ∧
    decode_payload (encodePayload data) = data := by
  have hlen0 : ¬ data.length = 0 := fun h => hdata (List.length_eq_zero.mp h)
  refine ⟨by rw [encode_data, if_neg hlen0], ?_⟩
  obtain ⟨root, hbt, hconds⟩ := code_conditions data hdata
  set codes := build_codes root [] with hcodes
  set getc : Nat → BitString := fun s => (afind s codes).getD [] with hgetc
  set rev := codes.map (fun p => (p.2, p.1)) with hrev
  have henceq := huffman_encode_eq_of_tree data root hdata hbt
  have henc1 : (huffman_encode data).1 = (data.map getc).flatten := by
    rw [henceq]
    dsimp only
    rw [foldl_append_eq_flatten]
    simp
  have hrevp : (encodePayload data).reverse_mapping = rev := by
    show (huffman_encode data).2.2 = rev
    rw [henceq]
  set pad := (encodePayload data).padding with hpad
  have hpaddef : pad = if (huffman_encode data).1.length % 8 ≠ 0
      then 8 - (huffman_encode data).1.length % 8 else 0 := rfl
  have hbytes : (encodePayload data).encoded_bytes
      = packBits ((huffman_encode data).1 ++ List.replicate pad false) := rfl
  have hmod : ((huffman_encode data).1 ++ List.replicate pad false).length % 8 = 0 := by
    simp only [List.length_append, List.length_replicate]
    rw [hpaddef]
    by_cases h : (huffman_encode data).1.length % 8 = 0 <;> simp [h] <;> omega
  have hunpack : (((encodePayload data).encoded_bytes).map (natToBits 8)).flatten
      = (huffman_encode data).1 ++ List.replicate pad false := by
    rw [hbytes]
    exact (packBits_spec _ _ rfl hmod).2
  rw [decode_payload_def, hunpack, hrevp]
  have hencstrip : (if pad > 0
      then ((huffman_encode data).1 ++ List.replicate pad false).take
        (((huffman_encode data).1 ++ List.replicate pad false).length - pad)
      else (huffman_encode data).1 ++ List.replicate pad false)
      = (huffman_encode data).1 := by
    by_cases h : pad > 0
    · rw [if_pos h]
      have hsub : ((huffman_encode data).1 ++ List.replicate pad false).length - pad
          = (huffman_encode data).1.length := by simp
      rw [hsub]
      exact List.take_left _ _
    · rw [if_neg h]
      have h0 : pad = 0 := by omega
      simp [h0]
  rw [hencstrip, henc1]
  have hne : (data.map getc).flatten ≠ [] := by
    rcases data with _ | ⟨s, rest⟩
    · exact absurd rfl hdata
    · have h1 : getc s ≠ [] := (hconds s (by simp)).1
      simp only [List.map_cons, List.flatten_cons]
      intro h
      exact h1 (List.append_eq_nil.mp h).1
  rw [huffman_decode, if_neg hne]
  have h := decodeLoop_flatten rev getc data [] hconds
  rw [List.append_nil] at h
  rw [h]
  simp [decodeLoop]

/-- Witness for `encode_decode_roundtrip` at the 3-byte input `b"Hi!"`. -/
theorem encode_decode_roundtrip_witness :
    (([72, 105, 33] : List Nat) ≠ []) ∧
    encode_data [72, 105, 33] = Except.ok (encodePayload [72, 105, 33]) ∧
    decode_payload (encodePayload [72, 105, 33]) = [72, 105, 33] :=
  ⟨by decide,
   (encode_decode_roundtrip [72, 105, 33] (by decide)).1,
   (encode_decode_roundtrip [72, 105, 33] (by decide)).2⟩

/-- **C1 counterexample.** At `x = b""` the round trip does not hold as
stated: `encode_data` raises (`ZeroDivisionError` in the compression-ratio
computation) instead of producing a payload, so `decode(encode(b""))`
cannot return `b""`. -/
theorem roundtrip_empty_cex : encode_data [] ≠ Except.ok (encodePayload []) := by
  rw [encode_data]
  simp

/-- **C2 counterexample.** With the reverse mapping produced by encoding
`b"ABBCCCC"` (codes `A ↦ "00"`, `B ↦ "01"`, `C ↦ "1"`), decoding the
one-bit string `"0"` exhausts the bits while the non-empty partial code
`"0"` is still unmatched — yet `huffman_decode` does not fail: it silently
returns (here, the empty byte sequence). -/
theorem decode_unmatched_partial_silent_cex :
    huffman_decode [false] (huffman_encode [65, 66, 66, 67, 67, 67, 67]).2.2 = [] := by
  decide

/-- **C2 (amended).** When the bit string is exhausted while a non-empty
partial code remains unmatched, `huffman_decode` raises nothing: it returns
the symbols decoded so far and silently discards the unmatched remainder.
Decoding valid codes followed by trailing bits none of whose non-empty
prefixes is a code returns exactly the originally encoded bytes. -/
theorem trailing_partial_code_dropped (data : List Nat) (trailing : List Bool)
    (hdata : data ≠ [])
    (htrail : ∀ p, p <+: trailing → p ≠ [] →
      afind p (huffman_encode data).2.2 = none) :
    huffman_decode ((huffman_encode data).1 ++ trailing)
      (huffman_encode data).2.2 = data := by
  obtain ⟨root, hbt, hconds⟩ := code_conditions data hdata
  set codes := build_codes root [] with hcodes
  set getc : Nat → BitString := fun s => (afind s codes).getD [] with hgetc
  set rev := codes.map (fun p => (p.2, p.1)) with hrev
  have henceq := huffman_encode_eq_of_tree data root hdata hbt
  have henc1 : (huffman_encode data).1 = (data.map getc).flatten := by
    rw [henceq]
    dsimp only
    rw [foldl_append_eq_flatten]
    simp
  have hrev2 : (huffman_encode data).2.2 = rev := by rw [henceq]
  rw [henc1, hrev2]
  rw [hrev2] at htrail
  have hne : (data.map getc).flatten ++ trailing ≠ [] := by
    rcases data with _ | ⟨s, rest⟩
    · exact absurd rfl hdata
    · have h1 : getc s ≠ [] := (hconds s (by simp)).1
      simp only [List.map_cons, List.flatten_cons, List.append_assoc]
      intro h
      exact h1 (List.append_eq_nil.mp h).1
  rw [huffman_decode, if_neg hne]
  rw [decodeLoop_flatten rev getc data trailing hconds]
  have hzero : decodeLoop rev trailing [] = [] := by
    refine decodeLoop_no_match rev trailing [] ?_
    intro p hp hpne
    simpa using htrail p hp hpne
  rw [hzero, List.append_nil]

/-- Witness for `trailing_partial_code_dropped`: encode `b"ABBCCCC"` and
append the single bit `"0"` (a strict prefix of the codes `"00"`/`"01"`,
itself not a code); decode returns `b"ABBCCCC"` with the trailing bit
dropped. -/
theorem trailing_partial_code_dropped_witness :
    (([65, 66, 66, 67, 67, 67, 67] : List Nat) ≠ []) ∧
    huffman_decode ((huffman_encode [65, 66, 66, 67, 67, 67, 67]).1 ++ [false])
        (huffman_encode [65, 66, 66, 67, 67, 67, 67]).2.2
      = [65, 66, 66, 67, 67, 67, 67] :=
  ⟨by decide,
   trailing_partial_code_dropped [65, 66, 66, 67, 67, 67, 67] [false] (by decide)
     (by
        intro p hp hpne
        rcases p with _ | ⟨b, _ | ⟨b2, p''⟩⟩
        · exact absurd rfl hpne
        · have hb : b = false := by
            obtain ⟨t, ht⟩ := hp
            simp only [List.cons_append, List.nil_append] at ht
            exact (List.cons.inj ht).1
          subst hb
          decide
        · have := hp.length_le
          simp at this)⟩

/-! ## Claim theorems: single-symbol input -/

theorem uniqueKeysFrom_all_mem : ∀ (l seen : List Nat),
    (∀ x ∈ l, x ∈ seen) → uniqueKeysFrom seen l = [] := by
  intro l
  induction l with
  | nil => intro seen _; rfl
  | cons a l ih =>
    intro seen h
    rw [uniqueKeysFrom, if_pos (h a (List.mem_cons_self a l))]
    exact ih seen (fun x hx => h x (List.mem_cons_of_mem _ hx))

theorem uniqueKeys_all_eq (data : List Nat) (c : Nat) (hdata : data ≠ [])
    (hall : ∀ x ∈ data, x = c) : uniqueKeys data = [c] := by
  rcases data with _ | ⟨a, l⟩
  · exact absurd rfl hdata
  · have ha : a = c := hall a (List.mem_cons_self a l)
    subst ha
    have h2 : uniqueKeysFrom [a] l = [] :=
      uniqueKeysFrom_all_mem l [a] (fun x hx => by
        have hx2 := hall x (List.mem_cons_of_mem _ hx)
        simp [hx2])
    rw [uniqueKeys, uniqueKeysFrom, if_neg (List.not_mem_nil a), h2]

/-- **C8.** A non-empty input with a single distinct symbol yields a
one-leaf tree and the reserved code `"0"` for that symbol; for `b"AAAAA"`
the pre-padding bit length is 5, `paddingBits = 3`, and decoding restores
`b"AAAAA"`. -/
theorem single_symbol_tree (data : List Nat) (c : Nat) (hdata : data ≠ [])
    (hall : ∀ x ∈ data, x = c) :
    build_huffman_tree data = some (Tree.leaf c) ∧
    (huffman_encode data).2.1 = [(c, [false])] ∧
    (huffman_encode [65, 65, 65, 65, 65]).1.length = 5 ∧
    (encodePayload [65, 65, 65, 65, 65]).padding = 3 ∧
    decode_payload (encodePayload [65, 65, 65, 65, 65]) = [65, 65, 65, 65, 65] := by
  have huk := uniqueKeys_all_eq data c hdata hall
  have hinit : initQueue data = [(Tree.leaf c, data.count c)] := by
    rw [initQueue, huk]
    rfl
  have hbt : build_huffman_tree data = some (Tree.leaf c) := by
    unfold build_huffman_tree
    rw [hinit]
    rfl
  refine ⟨hbt, ?_, by decide, by decide, by decide⟩
  rw [huffman_encode_eq_of_tree data (Tree.leaf c) hdata hbt]
  rfl

/-- Witness for `single_symbol_tree` at `b"AAAAA"`. -/
theorem single_symbol_tree_witness :
    (([65, 65, 65, 65, 65] : List Nat) ≠ []) ∧
    build_huffman_tree [65, 65, 65, 65, 65] = some (Tree.leaf 65) ∧
    (huffman_encode [65, 65, 65, 65, 65]).2.1 = [(65, [false])] :=
  ⟨by decide,
   (single_symbol_tree [65, 65, 65, 65, 65] 65 (by decide) (by decide)).1,
   (single_symbol_tree [65, 65, 65, 65, 65] 65 (by decide) (by decide)).2.1⟩

end HuffStream
